import Mathlib

/-!
Shallow embedding of the keyed reactive collection store of
`src/store/MasterStore.ts` (classes `MasterStore` and `StoreViewImpl`),
together with the parts of its two libraries that the store's observable
behaviour depends on:

* zustand v4 `createStore`/`setState` (package.json pins `zustand: ^4.4.7`):
  `setState(partial)` evaluates the partial, and fires every listener whenever
  the produced partial object is not `Object.is`-identical to the current
  state object.  `MasterStore`'s `setData` always passes a function returning
  a freshly allocated `{ data: { ...state.data, [key]: value } }` object, so
  the `Object.is` test is always false and every `setData` call fires every
  registered listener exactly once, with the new state.  We model this by
  appending one snapshot of the post-call data table to a notification log on
  every `setData` call.

* immer `produce(base, recipe)`: returns `base` itself (same reference) when
  the recipe never modifies the draft; otherwise returns a new structure in
  which every untouched element keeps its original reference and only the
  modified records are fresh objects.  Immer's proxy `set` trap treats a
  write of a value identical to the current one as no modification, so for
  the flat records stored here "the recipe changed nothing" coincides with
  "the mutator returned a value equal to its input".

JavaScript reference identity is modelled by tagging every heap object
(record, array) with an allocation number `ref`; a monotone counter `fresh`
in the store state supplies new tags, so a tag equal to a pre-existing tag
means "the same object" and a tag ≥ the old counter means "a new object".
Record drafts are modelled as the pair `(id, payload)`; a mutator is a
function on such pairs (it may rewrite the `id` field, exactly as a
`Draft<T>` allows).
-/

namespace MStore

/-- A stored record: `ref` is its allocation tag (JS object identity),
`id` the `Identifiable.id` field, `payload` the remaining fields. -/
structure Rec (α : Type) where
  ref : Nat
  id : String
  payload : α
deriving DecidableEq

/-- A stored array (`T[]`): allocation tag plus its elements. -/
structure Arr (α : Type) where
  ref : Nat
  items : List (Rec α)
deriving DecidableEq

/-- The `data: Record<string, any>` table of `MasterStoreState`: an
insertion-ordered association list.  A key mapped to `none` models an entry
whose value is `undefined` (as produced by `MasterStore.clear`). -/
abbrev DataTable (α : Type) := List (String × Option (Arr α))

/-- The zustand store state: the data table, the allocation counter, and the
log of data snapshots passed to listeners (most recent first).  One log entry
corresponds to one invocation of every subscribed callback. -/
structure StoreState (α : Type) where
  data : DataTable α
  fresh : Nat
  log : List (DataTable α)
deriving DecidableEq

/-- Property lookup `data[key]`: `none` means the key is absent. -/
def lookupData {α : Type} : DataTable α → String → Option (Option (Arr α))
  | [], _ => none
  | (k', v) :: rest, k => if k' = k then some v else lookupData rest k

/-- The spread `{ ...state.data, [key]: value }`: an existing key keeps its
position and gets the new value, a new key is appended at the end; every
other entry is carried over unchanged (same value references). -/
def upsert {α : Type} (k : String) (v : Option (Arr α)) : DataTable α → DataTable α
  | [] => [(k, v)]
  | (k', v') :: rest => if k' = k then (k, v) :: rest else (k', v') :: upsert k v rest

/-- `setData(key, value)` of `MasterStore`'s zustand store: rebuild the data
object with the key updated, and (because the partial is a fresh object)
fire every listener once with the new state.  `StoreViewImpl.subscribe`
wraps the raw listener so each subscribed callback runs once per log entry. -/
def setData {α : Type} (st : StoreState α) (key : String) (v : Option (Arr α)) :
    StoreState α :=
  let data' := upsert key v st.data
  { data := data', fresh := st.fresh, log := data' :: st.log }

/-- The sequence a subscriber for `key` is handed: `state.data[key] ?? []`. -/
def sliceItems {α : Type} (d : DataTable α) (key : String) : List (Rec α) :=
  match lookupData d key with
  | some (some a) => a.items
  | _ => []

/-- The array object currently stored under `key`, if any (reference and
contents); `none` when the key is absent or `undefined`. -/
def storedArr {α : Type} (st : StoreState α) (key : String) : Option (Arr α) :=
  match lookupData st.data key with
  | some (some a) => some a
  | _ => none

/-- The records currently stored under `key` (empty when absent). -/
def itemsOf {α : Type} (st : StoreState α) (key : String) : List (Rec α) :=
  sliceItems st.data key

/-- How many times each subscribed callback has been invoked. -/
def callbackCalls {α : Type} (st : StoreState α) : Nat :=
  st.log.length

/-- The arguments passed to a callback subscribed through the view for
`key`, most recent first: `StoreViewImpl.subscribe` registers a raw listener
that unconditionally calls the callback with `state.data[key] ?? []`. -/
def receivedBy {α : Type} (st : StoreState α) (key : String) : List (List (Rec α)) :=
  st.log.map (fun d => sliceItems d key)

/-- `const currentItems = state.data[this.key] ?? []`, threading the
allocation counter: a present array is returned by reference; an absent or
`undefined` entry yields a freshly allocated empty array. -/
def readArrAt {α : Type} (d : DataTable α) (key : String) (f : Nat) : Arr α × Nat :=
  match lookupData d key with
  | some (some a) => (a, f)
  | _ => (⟨f, []⟩, f + 1)

/-- `Date.now().toString() + Math.random().toString(36).substring(2, 11)`:
the decimal print of the current clock value followed by the random
suffix.  Clock and suffix are inputs of the model (external nondeterminism). -/
def genId (now : Nat) (suffix : String) : String :=
  Nat.repr now ++ suffix

/-- The record draft as the mutator sees it. -/
def pairOf {α : Type} (r : Rec α) : String × α :=
  (r.id, r.payload)

/-- `StoreViewImpl.addItem`: build the new record with a generated id,
append it to the current items in a fresh array, store, and return it. -/
def addItem {α : Type} (st : StoreState α) (key : String) (payload : α)
    (now : Nat) (suffix : String) : StoreState α × Rec α :=
  let newItem : Rec α := ⟨st.fresh, genId now suffix, payload⟩
  let res := readArrAt st.data key (st.fresh + 1)
  let updated : Arr α := ⟨res.2, res.1.items ++ [newItem]⟩
  (setData { st with fresh := res.2 + 1 } key (some updated), newItem)

/-- Immer `produce` for the `updateItem` recipe
`draft => { const item = draft.find(r => r.id === id); if (item) updater(item) }`:
mutate the first record whose id matches.  Returns `none` when the draft was
never modified (no match, or the write left every field at its old value),
in which case `produce` returns the base; otherwise returns the new element
list (matched record rebuilt with a fresh tag, all others kept by reference)
and the advanced allocation counter. -/
def immerMapFirst {α : Type} [DecidableEq α] (g : String × α → String × α)
    (id : String) (f : Nat) : List (Rec α) → Option (List (Rec α) × Nat)
  | [] => none
  | r :: rest =>
    if r.id = id then
      let p := g (pairOf r)
      if p = pairOf r then none
      else some (⟨f, p.1, p.2⟩ :: rest, f + 1)
    else
      match immerMapFirst g id f rest with
      | none => none
      | some (rest', f') => some (r :: rest', f')

/-- `StoreViewImpl.updateItem`: produce over the current items, then
`setData` the result (the base array itself when nothing changed). -/
def updateItem {α : Type} [DecidableEq α] (st : StoreState α) (key : String)
    (id : String) (g : String × α → String × α) : StoreState α :=
  let res := readArrAt st.data key st.fresh
  match immerMapFirst g id res.2 res.1.items with
  | none => setData { st with fresh := res.2 } key (some res.1)
  | some (items', f') => setData { st with fresh := f' + 1 } key (some ⟨f', items'⟩)

/-- `StoreViewImpl.removeItem`: `Array.prototype.filter` always allocates a
new array, even when every element is kept. -/
def removeItem {α : Type} (st : StoreState α) (key : String) (id : String) :
    StoreState α :=
  let res := readArrAt st.data key st.fresh
  let kept := res.1.items.filter (fun r => r.id ≠ id)
  setData { st with fresh := res.2 + 1 } key (some ⟨res.2, kept⟩)

/-- `StoreViewImpl.clearItems`: store a fresh empty array. -/
def clearItems {α : Type} (st : StoreState α) (key : String) : StoreState α :=
  setData { st with fresh := st.fresh + 1 } key (some ⟨st.fresh, []⟩)

/-- Immer `produce` for the `updateItemsWhere` recipe: walk the draft,
apply the mutator to every element whose ORIGINAL value satisfies the
predicate (the source tests `predicate(currentItems[index])`).  Returns the
resulting elements, the advanced counter, and whether any element was
actually modified (same-value writes do not count). -/
def immerMapWhere {α : Type} [DecidableEq α] (pred : String × α → Bool)
    (g : String × α → String × α) : Nat → List (Rec α) → List (Rec α) × Nat × Bool
  | f, [] => ([], f, false)
  | f, r :: rest =>
    if pred (pairOf r) then
      let p := g (pairOf r)
      if p = pairOf r then
        let res := immerMapWhere pred g f rest
        (r :: res.1, res.2.1, res.2.2)
      else
        let res := immerMapWhere pred g (f + 1) rest
        (⟨f, p.1, p.2⟩ :: res.1, res.2.1, true)
    else
      let res := immerMapWhere pred g f rest
      (r :: res.1, res.2.1, res.2.2)

/-- `StoreViewImpl.updateItemsWhere`: produce with the per-item recipe and
store the result (the base array when no element was modified). -/
def updateItemsWhere {α : Type} [DecidableEq α] (st : StoreState α) (key : String)
    (pred : String × α → Bool) (g : String × α → String × α) : StoreState α :=
  let res := readArrAt st.data key st.fresh
  let out := immerMapWhere pred g res.2 res.1.items
  if out.2.2 then setData { st with fresh := out.2.1 + 1 } key (some ⟨out.2.1, out.1⟩)
  else setData { st with fresh := res.2 } key (some res.1)

/-- The contents of an array as the whole-collection draft exposes them. -/
def contentsOf {α : Type} (items : List (Rec α)) : List (String × α) :=
  items.map pairOf

/-- Rebuild records from a whole-collection draft result: an output element
equal to the input element at the same position keeps its reference,
anything else is a fresh object (positional approximation of immer's sharing
for arbitrary array recipes; no claim depends on the exact sharing pattern
of `updateItems`, only on the stored contents and the single `setData`). -/
def reassign {α : Type} [DecidableEq α] :
    Nat → List (Rec α) → List (String × α) → List (Rec α) × Nat
  | f, _, [] => ([], f)
  | f, [], p :: ps =>
    let res := reassign (f + 1) ([] : List (Rec α)) ps
    (⟨f, p.1, p.2⟩ :: res.1, res.2)
  | f, r :: rs, p :: ps =>
    if pairOf r = p then
      let res := reassign f rs ps
      (r :: res.1, res.2)
    else
      let res := reassign (f + 1) rs ps
      (⟨f, p.1, p.2⟩ :: res.1, res.2)

/-- `StoreViewImpl.updateItems`: produce with a whole-collection recipe,
modelled by its effect `h` on the contents; an unchanged draft returns the
base array. -/
def updateItems {α : Type} [DecidableEq α] (st : StoreState α) (key : String)
    (h : List (String × α) → List (String × α)) : StoreState α :=
  let res := readArrAt st.data key st.fresh
  let c' := h (contentsOf res.1.items)
  if c' = contentsOf res.1.items then setData { st with fresh := res.2 } key (some res.1)
  else
    let out := reassign res.2 res.1.items c'
    setData { st with fresh := out.2 + 1 } key (some ⟨out.2, out.1⟩)

/-- `StoreViewImpl.setItem` with a complete object: store `[item]` in a
fresh singleton array (the record is the caller's object). -/
def setItemReplace {α : Type} (st : StoreState α) (key : String) (r : Rec α) :
    StoreState α :=
  setData { st with fresh := st.fresh + 1 } key (some ⟨st.fresh, [r]⟩)

/-- `StoreViewImpl.setItem` with an id-less object: build a record with a
generated id and store it as the whole collection. -/
def setItemCreate {α : Type} (st : StoreState α) (key : String) (payload : α)
    (now : Nat) (suffix : String) : StoreState α × Rec α :=
  let newItem : Rec α := ⟨st.fresh, genId now suffix, payload⟩
  (setData { st with fresh := st.fresh + 2 } key (some ⟨st.fresh + 1, [newItem]⟩), newItem)

/-- `StoreViewImpl.setItem` with a draft updater: produce over the first
item when one exists (a same-value write returns the base record, but the
wrapping array `[updatedItem]` is always fresh); when the collection is
empty nothing happens — in particular no `setData`, hence no notification. -/
def setItemUpdate {α : Type} [DecidableEq α] (st : StoreState α) (key : String)
    (g : String × α → String × α) : StoreState α :=
  let res := readArrAt st.data key st.fresh
  match res.1.items with
  | [] => { st with fresh := res.2 }
  | r :: _ =>
    let p := g (pairOf r)
    if p = pairOf r then
      setData { st with fresh := res.2 + 1 } key (some ⟨res.2, [r]⟩)
    else
      setData { st with fresh := res.2 + 2 } key (some ⟨res.2 + 1, [⟨res.2, p.1, p.2⟩]⟩)

/-- One mutating call through a view handle, with the external
nondeterminism (clock, random suffix) and the mutator functions as data. -/
inductive Mutation (α : Type) where
  | add (key : String) (payload : α) (now : Nat) (suffix : String)
  | update (key : String) (id : String) (g : String × α → String × α)
  | updateAll (key : String) (h : List (String × α) → List (String × α))
  | updateWhere (key : String) (pred : String × α → Bool) (g : String × α → String × α)
  | remove (key : String) (id : String)
  | clearColl (key : String)
  | setReplace (key : String) (r : Rec α)
  | setCreate (key : String) (payload : α) (now : Nat) (suffix : String)
  | setUpdate (key : String) (g : String × α → String × α)

/-- The collection a mutating call is scoped to (the view's key). -/
def Mutation.key {α : Type} : Mutation α → String
  | .add k _ _ _ => k
  | .update k _ _ => k
  | .updateAll k _ => k
  | .updateWhere k _ _ => k
  | .remove k _ => k
  | .clearColl k => k
  | .setReplace k _ => k
  | .setCreate k _ _ _ => k
  | .setUpdate k _ => k

/-- Run one mutating call against the store state. -/
def applyMutation {α : Type} [DecidableEq α] (st : StoreState α) :
    Mutation α → StoreState α
  | .add k p now s => (addItem st k p now s).1
  | .update k i g => updateItem st k i g
  | .updateAll k h => updateItems st k h
  | .updateWhere k pr g => updateItemsWhere st k pr g
  | .remove k i => removeItem st k i
  | .clearColl k => clearItems st k
  | .setReplace k r => setItemReplace st k r
  | .setCreate k p now s => (setItemCreate st k p now s).1
  | .setUpdate k g => setItemUpdate st k g

/-- Run a list of mutating calls in order. -/
def applyMutations {α : Type} [DecidableEq α] (st : StoreState α) :
    List (Mutation α) → StoreState α
  | [] => st
  | m :: ms => applyMutations (applyMutation st m) ms

/-- All allocation tags of an array and its records lie below `n`:
the well-formedness the allocation counter maintains, so a tag ≥ `n`
denotes an object distinct from everything reachable in the array. -/
def RefsBelow {α : Type} (a : Arr α) (n : Nat) : Prop :=
  a.ref < n ∧ ∀ r ∈ a.items, r.ref < n

instance {α : Type} (a : Arr α) (n : Nat) : Decidable (RefsBelow a n) := by
  unfold RefsBelow; infer_instance

/-- `MasterStore`: the zustand store plus the view cache mapping collection
names to handle objects (modelled by their allocation tags). -/
structure Master (α : Type) where
  st : StoreState α
  viewCache : List (String × Nat)
deriving DecidableEq

/-- `new MasterStore()`: empty table, empty cache. -/
def Master.init {α : Type} : Master α :=
  ⟨⟨[], 0, []⟩, []⟩

/-- `Map.prototype.get` over the view cache. -/
def cacheFind : List (String × Nat) → String → Option Nat
  | [], _ => none
  | (k', h) :: rest, k => if k' = k then some h else cacheFind rest k

/-- `MasterStore.getView`: return the cached handle when present,
otherwise allocate a fresh handle and cache it. -/
def getView {α : Type} (m : Master α) (key : String) : Nat × Master α :=
  match cacheFind m.viewCache key with
  | some h => (h, m)
  | none =>
    (m.st.fresh,
     { st := { m.st with fresh := m.st.fresh + 1 },
       viewCache := m.viewCache ++ [(key, m.st.fresh)] })

/-- The `Object.keys(...).forEach(key => setData(key, undefined))` loop of
`MasterStore.clear`. -/
def clearKeys {α : Type} (st : StoreState α) : List String → StoreState α
  | [] => st
  | k :: ks => clearKeys (setData st k none) ks

/-- `MasterStore.clear`: set every current key to `undefined`, then empty
the view cache. -/
def Master.clear {α : Type} (m : Master α) : Master α :=
  ⟨clearKeys m.st (m.st.data.map Prod.fst), []⟩

/-- A mutating call through a view only touches the zustand store, never
the view cache. -/
def applyMutationM {α : Type} [DecidableEq α] (m : Master α) (mu : Mutation α) :
    Master α :=
  { m with st := applyMutation m.st mu }

/-- Run a list of mutating calls against the master store. -/
def applyMutationsM {α : Type} [DecidableEq α] (m : Master α) :
    List (Mutation α) → Master α
  | [] => m
  | mu :: ms => applyMutationsM (applyMutationM m mu) ms

/-- The ids currently stored under `key`. -/
def idsOf {α : Type} (st : StoreState α) (key : String) : List String :=
  (sliceItems st.data key).map (fun r => r.id)

/-- The mutator functions of a call leave every record's `id` field alone,
and a whole-collection recipe preserves distinctness of ids. -/
def IdPreserving {α : Type} : Mutation α → Prop
  | .update _ _ g => ∀ x, (g x).1 = x.1
  | .updateWhere _ _ g => ∀ x, (g x).1 = x.1
  | .setUpdate _ g => ∀ x, (g x).1 = x.1
  | .updateAll _ h => ∀ l, (l.map Prod.fst).Nodup → ((h l).map Prod.fst).Nodup
  | _ => True

/-- The id generated for an `addItem` call does not collide with an id
already present in its collection. -/
def FreshId {α : Type} (st : StoreState α) : Mutation α → Prop
  | .add key _ now suffix => genId now suffix ∉ idsOf st key
  | _ => True

/-- Store states reachable from the fresh store by view operations whose
mutators preserve ids and whose generated ids are fresh. -/
inductive SafeReachable {α : Type} [DecidableEq α] : StoreState α → Prop where
  | init : SafeReachable ⟨[], 0, []⟩
  | step (st : StoreState α) (m : Mutation α) (hst : SafeReachable st)
      (hid : IdPreserving m) (hfresh : FreshId st m) :
      SafeReachable (applyMutation st m)

/-- Whether a mutating call reaches its `setData` (every operation does,
except `setItem` with an updater on an empty collection, which returns
before storing anything). -/
def Notifies {α : Type} (st : StoreState α) : Mutation α → Prop
  | .setUpdate key _ => sliceItems st.data key ≠ []
  | _ => True

end MStore

namespace MStore

/-! ### Table and notification lemmas -/

lemma lookupData_upsert_self {α : Type} (k : String) (v : Option (Arr α)) (d : DataTable α) :
    lookupData (upsert k v d) k = some v := by
  induction d with
  | nil => simp [upsert, lookupData]
  | cons e rest ih =>
    obtain ⟨k0, v0⟩ := e
    by_cases h : k0 = k <;> simp [upsert, lookupData, h, ih]

lemma lookupData_upsert_ne {α : Type} (k k' : String) (v : Option (Arr α)) (d : DataTable α)
    (h : k' ≠ k) : lookupData (upsert k v d) k' = lookupData d k' := by
  induction d with
  | nil => simp [upsert, lookupData, Ne.symm h]
  | cons e rest ih =>
    obtain ⟨k0, v0⟩ := e
    by_cases hk : k0 = k
    · subst hk
      simp [upsert, lookupData, Ne.symm h]
    · by_cases hk' : k0 = k' <;> simp [upsert, lookupData, hk, hk', h, ih]

lemma storedArr_setData_self {α : Type} (st : StoreState α) (key : String)
    (v : Option (Arr α)) : storedArr (setData st key v) key = v := by
  cases v <;> simp [storedArr, setData, lookupData_upsert_self]

lemma storedArr_setData_ne {α : Type} (st : StoreState α) (key k' : String)
    (v : Option (Arr α)) (h : k' ≠ key) : storedArr (setData st key v) k' = storedArr st k' := by
  simp [storedArr, setData, lookupData_upsert_ne _ _ _ _ h]

lemma callbackCalls_setData {α : Type} (st : StoreState α) (key : String)
    (v : Option (Arr α)) : callbackCalls (setData st key v) = callbackCalls st + 1 := rfl

lemma receivedBy_setData {α : Type} (st : StoreState α) (key k : String)
    (v : Option (Arr α)) :
    receivedBy (setData st key v) k =
      sliceItems (setData st key v).data k :: receivedBy st k := rfl

/-! ### Non-emptiness of generated ids -/

lemma toDigitsCore_length_ge (b : Nat) :
    ∀ (f n : Nat) (ds : List Char), ds.length ≤ (Nat.toDigitsCore b f n ds).length := by
  intro f
  induction f with
  | zero => intro n ds; simp [Nat.toDigitsCore]
  | succ f ih =>
    intro n ds
    simp only [Nat.toDigitsCore]
    split
    · simp
    · exact le_trans (by simp) (ih _ _)

lemma toDigits_length_pos (b n : Nat) : 0 < (Nat.toDigits b n).length := by
  unfold Nat.toDigits
  simp only [Nat.toDigitsCore]
  split
  · simp
  · exact lt_of_lt_of_le (by simp) (toDigitsCore_length_ge b n (n / b) _)

lemma data_repr (n : Nat) : (Nat.repr n).data = Nat.toDigits 10 n := by
  simp [Nat.repr, List.asString]

lemma genId_ne_empty (now : Nat) (suffix : String) : genId now suffix ≠ "" := by
  unfold genId
  intro h
  have hd := congrArg String.data h
  simp only [String.data_append, data_repr] at hd
  rcases List.append_eq_nil.mp hd with ⟨h1, _⟩
  have := toDigits_length_pos 10 now
  simp [h1] at this

end MStore

namespace MStore

lemma readArrAt_items {α : Type} (d : DataTable α) (key : String) (f : Nat) :
    (readArrAt d key f).1.items = sliceItems d key := by
  cases h : lookupData d key with
  | none => simp [readArrAt, sliceItems, h]
  | some v => cases v <;> simp_all [readArrAt, sliceItems]

/-- Claim C1, counterexample: in a store holding one record under "todos",
`updateItem` with an absent id is a no-op mutation — the stored sequence
stays reference-identical (same array object, tag 0) — yet every subscribed
callback is invoked once (`setData` always publishes a fresh state object,
so zustand fires all listeners). -/
theorem c1_counterexample :
    storedArr (updateItem (α := Bool) ⟨[("todos", some ⟨0, [⟨1, "a", false⟩]⟩)], 2, []⟩
        "todos" "zzz" (fun x => x)) "todos" =
      some ⟨0, [⟨1, "a", false⟩]⟩ ∧
    callbackCalls (updateItem (α := Bool) ⟨[("todos", some ⟨0, [⟨1, "a", false⟩]⟩)], 2, []⟩
        "todos" "zzz" (fun x => x)) =
      callbackCalls (α := Bool) ⟨[("todos", some ⟨0, [⟨1, "a", false⟩]⟩)], 2, []⟩ + 1 := by
  constructor <;> rfl

/-- Claim C1 (amended): every `updateItem` call — in particular a no-op one,
whose resulting sequence is reference-identical to the prior stored
sequence — invokes each subscribed callback exactly once, because `setData`
always publishes a freshly built state object and zustand then fires every
listener. -/
theorem c1_updateItem_always_fires {α : Type} [DecidableEq α] (st : StoreState α)
    (key id : String) (g : String × α → String × α) :
    callbackCalls (updateItem st key id g) = callbackCalls st + 1 := by
  simp only [updateItem]
  split <;> rfl

/-- Claim C2, counterexample: a callback subscribed through the view for
collection "a" is invoked by a mutation (`addItem`) of the different
collection "b" of the same store — the raw zustand listener registered by
`StoreViewImpl.subscribe` makes no per-key change check — even though the
sequence stored under "a" is untouched. -/
theorem c2_counterexample :
    receivedBy ((addItem (α := Bool) ⟨[("a", some ⟨0, [⟨1, "r", true⟩]⟩)], 2, []⟩
        "b" false 0 "x").1) "a" = [[⟨1, "r", true⟩]] ∧
    storedArr ((addItem (α := Bool) ⟨[("a", some ⟨0, [⟨1, "r", true⟩]⟩)], 2, []⟩
        "b" false 0 "x").1) "a" =
      storedArr (α := Bool) ⟨[("a", some ⟨0, [⟨1, "r", true⟩]⟩)], 2, []⟩ "a" := by
  constructor <;> rfl

/-- Claim C2 (amended): a subscribed callback is invoked exactly once per
mutating call to ANY collection of the store (not only its own), receiving
its own collection's current (post-mutation) sequence; it is not invoked at
registration time.  The only mutating call that fires no notification is
`setItem` with an updater on an empty collection, which returns before
calling `setData` (the `Notifies` side condition). -/
theorem c2_every_mutation_notifies_every_subscriber {α : Type} [DecidableEq α]
    (st : StoreState α) (m : Mutation α) (k : String) (hn : Notifies st m) :
    receivedBy (applyMutation st m) k =
      sliceItems (applyMutation st m).data k :: receivedBy st k := by
  cases m with
  | add k1 p now s => rfl
  | update k1 i g =>
    simp only [applyMutation, updateItem]
    split <;> rfl
  | updateAll k1 h1 =>
    simp only [applyMutation, updateItems]
    split <;> rfl
  | updateWhere k1 pr g =>
    simp only [applyMutation, updateItemsWhere]
    split <;> rfl
  | remove k1 i => rfl
  | clearColl k1 => rfl
  | setReplace k1 r => rfl
  | setCreate k1 p now s => rfl
  | setUpdate k1 g =>
    have hit := readArrAt_items (α := α) st.data k1 st.fresh
    simp only [applyMutation, setItemUpdate]
    rcases hmatch : (readArrAt st.data k1 st.fresh).1.items with _ | ⟨r, rest⟩
    · exact absurd (hit.symm.trans hmatch) hn
    · simp only [hmatch]
      split <;> rfl

/-- Witness for the amended C2 theorem at a concrete store and mutation. -/
theorem c2_witness :
    Notifies (α := Bool) ⟨[("a", some ⟨0, [⟨1, "r", true⟩]⟩)], 2, []⟩
        (Mutation.add "b" false 0 "x") ∧
    receivedBy (applyMutation (α := Bool) ⟨[("a", some ⟨0, [⟨1, "r", true⟩]⟩)], 2, []⟩
        (Mutation.add "b" false 0 "x")) "a" =
      sliceItems (applyMutation (α := Bool) ⟨[("a", some ⟨0, [⟨1, "r", true⟩]⟩)], 2, []⟩
        (Mutation.add "b" false 0 "x")).data "a" ::
      receivedBy (α := Bool) ⟨[("a", some ⟨0, [⟨1, "r", true⟩]⟩)], 2, []⟩ "a" :=
  ⟨trivial, c2_every_mutation_notifies_every_subscriber _ _ _ trivial⟩

end MStore

namespace MStore

lemma readArrAt_of_stored {α : Type} (st : StoreState α) (key : String) (arr : Arr α)
    (h : storedArr st key = some arr) (f : Nat) : readArrAt st.data key f = (arr, f) := by
  unfold readArrAt
  cases hl : lookupData st.data key with
  | none => simp [storedArr, hl] at h
  | some v =>
    cases v with
    | none => simp [storedArr, hl] at h
    | some a =>
      simp [storedArr, hl] at h
      subst h
      rfl

/-- Claim C5, counterexample: `removeItem` with an id present on no record
stores a NEW array object (tag 2, allocated by `Array.prototype.filter`,
which always returns a fresh array) holding the same records, so the stored
sequence is not reference-equal to the pre-call sequence (tag 0). -/
theorem c5_counterexample :
    storedArr (removeItem (α := Bool) ⟨[("k", some ⟨0, [⟨1, "a", false⟩]⟩)], 2, []⟩
        "k" "zzz") "k" = some ⟨2, [⟨1, "a", false⟩]⟩ ∧
    storedArr (removeItem (α := Bool) ⟨[("k", some ⟨0, [⟨1, "a", false⟩]⟩)], 2, []⟩
        "k" "zzz") "k" ≠
      storedArr (α := Bool) ⟨[("k", some ⟨0, [⟨1, "a", false⟩]⟩)], 2, []⟩ "k" := by
  constructor
  · rfl
  · decide

/-- Claim C5 (amended): `removeItem` on an unknown id raises no error and
keeps every record (same order, each record reference-identical), but the
stored sequence is a new array object — `filter` allocates unconditionally —
so only the records, not the sequence, retain reference identity. -/
theorem c5_removeItem_unknown_keeps_records {α : Type} (st : StoreState α)
    (key id : String) (arr : Arr α) (hstored : storedArr st key = some arr)
    (habs : ∀ r ∈ arr.items, r.id ≠ id) (hwf : arr.ref < st.fresh) :
    storedArr (removeItem st key id) key = some ⟨st.fresh, arr.items⟩ ∧
    st.fresh ≠ arr.ref := by
  have hread := readArrAt_of_stored st key arr hstored st.fresh
  have hfilter : arr.items.filter (fun r => r.id ≠ id) = arr.items :=
    List.filter_eq_self.mpr (by intro r hr; simpa using habs r hr)
  constructor
  · simp [removeItem, hread, hfilter, storedArr_setData_self]
    simpa using habs
  · omega

/-- Witness for the amended C5 theorem at a concrete store. -/
theorem c5_witness :
    storedArr (α := Bool) ⟨[("k", some ⟨0, [⟨1, "a", false⟩]⟩)], 2, []⟩ "k" =
        some ⟨0, [⟨1, "a", false⟩]⟩ ∧
    (∀ r ∈ (⟨0, [⟨1, "a", false⟩]⟩ : Arr Bool).items, r.id ≠ "zzz") ∧
    (⟨0, [⟨1, "a", false⟩]⟩ : Arr Bool).ref < 2 ∧
    (storedArr (removeItem (α := Bool) ⟨[("k", some ⟨0, [⟨1, "a", false⟩]⟩)], 2, []⟩
        "k" "zzz") "k" = some ⟨2, [⟨1, "a", false⟩]⟩ ∧
      (2 : Nat) ≠ (⟨0, [⟨1, "a", false⟩]⟩ : Arr Bool).ref) :=
  ⟨rfl, by decide, by decide,
   c5_removeItem_unknown_keeps_records ⟨[("k", some ⟨0, [⟨1, "a", false⟩]⟩)], 2, []⟩
     "k" "zzz" ⟨0, [⟨1, "a", false⟩]⟩ rfl (by decide) (by decide)⟩

lemma cacheFind_append_self (c : List (String × Nat)) (key : String) (h : Nat)
    (hc : cacheFind c key = none) : cacheFind (c ++ [(key, h)]) key = some h := by
  induction c with
  | nil => simp [cacheFind]
  | cons e rest ih =>
    obtain ⟨k0, h0⟩ := e
    simp only [List.cons_append]
    simp only [cacheFind] at hc ⊢
    by_cases hk : k0 = key
    · rw [if_pos hk] at hc
      exact absurd hc (by simp)
    · rw [if_neg hk] at hc ⊢
      exact ih hc

lemma getView_caches {α : Type} (m : Master α) (key : String) :
    cacheFind (getView m key).2.viewCache key = some (getView m key).1 := by
  cases hc : cacheFind m.viewCache key with
  | some h => simp [getView, hc]
  | none => simp [getView, hc, cacheFind_append_self _ _ _ hc]

lemma applyMutationsM_viewCache {α : Type} [DecidableEq α] (ms : List (Mutation α)) :
    ∀ (m : Master α), (applyMutationsM m ms).viewCache = m.viewCache := by
  induction ms with
  | nil => intro m; rfl
  | cons mu ms ih => intro m; exact (ih _).trans rfl

lemma getView_of_cached {α : Type} (m : Master α) (key : String) (h : Nat)
    (hc : cacheFind m.viewCache key = some h) : (getView m key).1 = h := by
  unfold getView
  simp [hc]

/-- Claim C6, counterexample: after `getView "k"` and then `clear()` —
which empties the view cache — a second `getView "k"` on the same store
instance returns a different handle object, so not every `getView(k)` call
over the store's lifetime returns the same handle. -/
theorem c6_counterexample :
    (getView (Master.clear (getView (Master.init (α := Bool)) "k").2) "k").1 ≠
      (getView (Master.init (α := Bool)) "k").1 := by
  decide

/-- Claim C6 (amended): `getView(k)` returns the same handle instance for
the same key across repeated calls, with any number of intervening view
mutations, as long as `clear()` is not called; `clear()` empties the view
cache, after which `getView` builds a fresh handle. -/
theorem c6_getView_memoized_until_clear {α : Type} [DecidableEq α] (m : Master α)
    (key : String) (ms : List (Mutation α)) :
    (getView (applyMutationsM (getView m key).2 ms) key).1 = (getView m key).1 := by
  apply getView_of_cached
  rw [applyMutationsM_viewCache]
  exact getView_caches m key

lemma applyMutation_lookup_ne {α : Type} [DecidableEq α] (st : StoreState α)
    (m : Mutation α) (k' : String) (h : k' ≠ m.key) :
    lookupData (applyMutation st m).data k' = lookupData st.data k' := by
  cases m with
  | add k1 p now s =>
    simp only [Mutation.key] at h
    simp only [applyMutation, addItem, setData]
    exact lookupData_upsert_ne _ _ _ _ h
  | update k1 i g =>
    simp only [Mutation.key] at h
    simp only [applyMutation, updateItem]
    split <;> exact lookupData_upsert_ne _ _ _ _ h
  | updateAll k1 h1 =>
    simp only [Mutation.key] at h
    simp only [applyMutation, updateItems]
    split <;> exact lookupData_upsert_ne _ _ _ _ h
  | updateWhere k1 pr g =>
    simp only [Mutation.key] at h
    simp only [applyMutation, updateItemsWhere]
    split <;> exact lookupData_upsert_ne _ _ _ _ h
  | remove k1 i =>
    simp only [Mutation.key] at h
    simp only [applyMutation, removeItem, setData]
    exact lookupData_upsert_ne _ _ _ _ h
  | clearColl k1 =>
    simp only [Mutation.key] at h
    simp only [applyMutation, clearItems, setData]
    exact lookupData_upsert_ne _ _ _ _ h
  | setReplace k1 r =>
    simp only [Mutation.key] at h
    simp only [applyMutation, setItemReplace, setData]
    exact lookupData_upsert_ne _ _ _ _ h
  | setCreate k1 p now s =>
    simp only [Mutation.key] at h
    simp only [applyMutation, setItemCreate, setData]
    exact lookupData_upsert_ne _ _ _ _ h
  | setUpdate k1 g =>
    simp only [Mutation.key] at h
    simp only [applyMutation, setItemUpdate]
    rcases hmatch : (readArrAt st.data k1 st.fresh).1.items with _ | ⟨r, rest⟩
    · simp only [hmatch]
    · simp only [hmatch]
      split <;> exact lookupData_upsert_ne _ _ _ _ h

/-- Claim C10 (confirmed): every mutating call through the view for key `k`
leaves the entry stored under every other key reference-identical to its
value before the call — the `{ ...state.data, [key]: value }` spread carries
every other entry over unchanged. -/
theorem c10_mutation_confined_to_own_key {α : Type} [DecidableEq α]
    (st : StoreState α) (m : Mutation α) (k' : String) (h : k' ≠ m.key) :
    storedArr (applyMutation st m) k' = storedArr st k' := by
  unfold storedArr
  rw [applyMutation_lookup_ne st m k' h]

/-- Witness for the C10 theorem at a concrete store and mutation. -/
theorem c10_witness :
    "a" ≠ (Mutation.clearColl (α := Bool) "b").key ∧
    storedArr (applyMutation (α := Bool) ⟨[("a", some ⟨0, [⟨1, "r", true⟩]⟩)], 2, []⟩
        (Mutation.clearColl "b")) "a" =
      storedArr (α := Bool) ⟨[("a", some ⟨0, [⟨1, "r", true⟩]⟩)], 2, []⟩ "a" :=
  ⟨by decide, c10_mutation_confined_to_own_key _ _ _ (by decide)⟩

end MStore

namespace MStore

lemma itemsOf_setData_self {α : Type} (st : StoreState α) (key : String) (a : Arr α) :
    itemsOf (setData st key (some a)) key = a.items := by
  simp [itemsOf, sliceItems, setData, lookupData_upsert_self]

lemma immerMapFirst_noChange {α : Type} [DecidableEq α] (g : String × α → String × α)
    (i : String) (f : Nat) :
    ∀ (l : List (Rec α)) (j : Nat) (hj : j < l.length),
      (∀ j' (hj' : j' < j), (l.get ⟨j', Nat.lt_trans hj' hj⟩).id ≠ i) →
      (l.get ⟨j, hj⟩).id = i →
      g (pairOf (l.get ⟨j, hj⟩)) = pairOf (l.get ⟨j, hj⟩) →
      immerMapFirst g i f l = none := by
  intro l
  induction l with
  | nil => intro j hj; simp at hj
  | cons r rest ih =>
    intro j hj hfirst hid hfix
    cases j with
    | zero =>
      simp only [List.get] at hid hfix
      simp [immerMapFirst, hid, hfix]
    | succ j =>
      have hr : r.id ≠ i := by
        have := hfirst 0 (Nat.succ_pos j)
        simpa using this
      have hrest : immerMapFirst g i f rest = none := by
        apply ih j (Nat.lt_of_succ_lt_succ hj)
        · intro j' hj'
          have := hfirst (j' + 1) (Nat.succ_lt_succ hj')
          simpa using this
        · simpa using hid
        · simpa using hfix
      simp [immerMapFirst, hr, hrest]

lemma immerMapFirst_changed {α : Type} [DecidableEq α] (g : String × α → String × α)
    (i : String) (f : Nat) :
    ∀ (l : List (Rec α)) (j : Nat) (hj : j < l.length),
      (∀ j' (hj' : j' < j), (l.get ⟨j', Nat.lt_trans hj' hj⟩).id ≠ i) →
      (l.get ⟨j, hj⟩).id = i →
      g (pairOf (l.get ⟨j, hj⟩)) ≠ pairOf (l.get ⟨j, hj⟩) →
      immerMapFirst g i f l =
        some (l.set j ⟨f, (g (pairOf (l.get ⟨j, hj⟩))).1,
                          (g (pairOf (l.get ⟨j, hj⟩))).2⟩, f + 1) := by
  intro l
  induction l with
  | nil => intro j hj; simp at hj
  | cons r rest ih =>
    intro j hj hfirst hid hchange
    cases j with
    | zero =>
      simp only [List.get] at hid hchange ⊢
      simp [immerMapFirst, hid, hchange]
    | succ j =>
      have hr : r.id ≠ i := by
        have := hfirst 0 (Nat.succ_pos j)
        simpa using this
      have hrest := ih j (Nat.lt_of_succ_lt_succ hj)
        (by
          intro j' hj'
          have := hfirst (j' + 1) (Nat.succ_lt_succ hj')
          simpa using this)
        (by simpa using hid) (by simpa using hchange)
      simp only [List.get] at hrest ⊢
      simp [immerMapFirst, hr, hrest]

/-- Claim C4 (confirmed): `updateItem` whose mutator produces no actual
change — e.g. writes a field value identical to the current one — is a true
no-op on the data: immer's same-value write detection leaves the draft
unmodified, `produce` returns the base array, and the stored sequence (and
hence the record itself) stays reference-identical, not merely value-equal. -/
theorem c4_updateItem_noop_is_identity {α : Type} [DecidableEq α] (st : StoreState α)
    (key i : String) (g : String × α → String × α) (arr : Arr α) (j : Nat)
    (hstored : storedArr st key = some arr) (hj : j < arr.items.length)
    (hfirst : ∀ j' (hj' : j' < j), (arr.items.get ⟨j', Nat.lt_trans hj' hj⟩).id ≠ i)
    (hid : (arr.items.get ⟨j, hj⟩).id = i)
    (hfix : g (pairOf (arr.items.get ⟨j, hj⟩)) = pairOf (arr.items.get ⟨j, hj⟩)) :
    storedArr (updateItem st key i g) key = some arr := by
  have hread := readArrAt_of_stored st key arr hstored st.fresh
  have hnone := immerMapFirst_noChange g i st.fresh arr.items j hj hfirst hid hfix
  simp [updateItem, hread, hnone, storedArr_setData_self]

/-- Witness for the C4 theorem: a store holding one record ("a", false);
the mutator writes `false` over `false`, and the stored array object is
unchanged. -/
theorem c4_witness :
    ((⟨0, [⟨1, "a", false⟩]⟩ : Arr Bool).items.get ⟨0, by decide⟩).id = "a" ∧
    (fun x => (x.1, false)) (pairOf ((⟨0, [⟨1, "a", false⟩]⟩ : Arr Bool).items.get ⟨0, by decide⟩)) =
      pairOf ((⟨0, [⟨1, "a", false⟩]⟩ : Arr Bool).items.get ⟨0, by decide⟩) ∧
    storedArr (updateItem (α := Bool) ⟨[("k", some ⟨0, [⟨1, "a", false⟩]⟩)], 2, []⟩
        "k" "a" (fun x => (x.1, false))) "k" = some ⟨0, [⟨1, "a", false⟩]⟩ :=
  ⟨rfl, rfl,
   c4_updateItem_noop_is_identity ⟨[("k", some ⟨0, [⟨1, "a", false⟩]⟩)], 2, []⟩
     "k" "a" (fun x => (x.1, false)) ⟨0, [⟨1, "a", false⟩]⟩ 0 rfl (by decide)
     (by intro j' hj'; exact absurd hj' (Nat.not_lt_zero j')) rfl rfl⟩

/-- Claim C3 (confirmed): `updateItem` on a present id whose mutator makes
a real change stores a new array (fresh tag) in which the first record with
that id is replaced by a fresh record carrying the mutated fields, and —
since `List.set` touches only position `j` — every other record is kept by
reference; the new tags are distinct from every pre-existing tag. -/
theorem c3_updateItem_copy_on_write {α : Type} [DecidableEq α] (st : StoreState α)
    (key i : String) (g : String × α → String × α) (arr : Arr α) (j : Nat)
    (hstored : storedArr st key = some arr) (hj : j < arr.items.length)
    (hfirst : ∀ j' (hj' : j' < j), (arr.items.get ⟨j', Nat.lt_trans hj' hj⟩).id ≠ i)
    (hid : (arr.items.get ⟨j, hj⟩).id = i)
    (hchange : g (pairOf (arr.items.get ⟨j, hj⟩)) ≠ pairOf (arr.items.get ⟨j, hj⟩))
    (hwf : RefsBelow arr st.fresh) :
    storedArr (updateItem st key i g) key =
      some ⟨st.fresh + 1,
            arr.items.set j ⟨st.fresh, (g (pairOf (arr.items.get ⟨j, hj⟩))).1,
                                       (g (pairOf (arr.items.get ⟨j, hj⟩))).2⟩⟩ ∧
    st.fresh + 1 ≠ arr.ref ∧
    (∀ r ∈ arr.items, st.fresh ≠ r.ref) := by
  have hread := readArrAt_of_stored st key arr hstored st.fresh
  have hsome := immerMapFirst_changed g i st.fresh arr.items j hj hfirst hid hchange
  refine ⟨?_, ?_, ?_⟩
  · simp [updateItem, hread, hsome, storedArr_setData_self]
  · have := hwf.1
    omega
  · intro r hr
    have := hwf.2 r hr
    omega

/-- Witness for the C3 theorem: toggling the flag of the second of two
records rebuilds the array and that record, keeping the first record. -/
theorem c3_witness :
    ((⟨0, [⟨1, "a", false⟩, ⟨2, "b", false⟩]⟩ : Arr Bool).items.get ⟨1, by decide⟩).id = "b" ∧
    storedArr (updateItem (α := Bool)
        ⟨[("k", some ⟨0, [⟨1, "a", false⟩, ⟨2, "b", false⟩]⟩)], 3, []⟩
        "k" "b" (fun x => (x.1, true))) "k" =
      some ⟨4, [⟨1, "a", false⟩, ⟨3, "b", true⟩]⟩ :=
  ⟨rfl, by
    have h := c3_updateItem_copy_on_write
      ⟨[("k", some ⟨0, [⟨1, "a", false⟩, ⟨2, "b", false⟩]⟩)], 3, []⟩
      "k" "b" (fun x => (x.1, true)) ⟨0, [⟨1, "a", false⟩, ⟨2, "b", false⟩]⟩ 1 rfl
      (by decide) (by decide) rfl (by decide) (by decide)
    exact h.1⟩

/-- Claim C7 (confirmed): `addItem` returns a fresh record whose non-id
fields equal the input and whose id is the generated non-empty string, and
stores the prior sequence with that record appended: every pre-existing
record keeps its position and its reference, with no reordering. -/
theorem c7_addItem_appends {α : Type} (st : StoreState α) (key : String) (p : α)
    (now : Nat) (suffix : String)
    (hwf : ∀ r ∈ itemsOf st key, r.ref < st.fresh) :
    itemsOf (addItem st key p now suffix).1 key =
      itemsOf st key ++ [(addItem st key p now suffix).2] ∧
    (addItem st key p now suffix).2.payload = p ∧
    (addItem st key p now suffix).2.id = genId now suffix ∧
    (addItem st key p now suffix).2.id ≠ "" ∧
    ∀ r ∈ itemsOf st key, (addItem st key p now suffix).2.ref ≠ r.ref := by
  have hitems : (readArrAt st.data key (st.fresh + 1)).1.items = itemsOf st key :=
    readArrAt_items _ _ _
  refine ⟨?_, rfl, rfl, genId_ne_empty now suffix, ?_⟩
  · simp only [addItem]
    rw [itemsOf_setData_self]
    rw [hitems]
  · intro r hr
    have := hwf r hr
    show st.fresh ≠ r.ref
    omega

/-- Witness for the C7 theorem: adding to a one-record collection. -/
theorem c7_witness :
    (∀ r ∈ itemsOf (α := Bool) ⟨[("k", some ⟨0, [⟨1, "a", false⟩]⟩)], 2, []⟩ "k",
      r.ref < 2) ∧
    itemsOf (addItem (α := Bool) ⟨[("k", some ⟨0, [⟨1, "a", false⟩]⟩)], 2, []⟩
        "k" true 7 "q").1 "k" =
      itemsOf (α := Bool) ⟨[("k", some ⟨0, [⟨1, "a", false⟩]⟩)], 2, []⟩ "k" ++
        [(addItem (α := Bool) ⟨[("k", some ⟨0, [⟨1, "a", false⟩]⟩)], 2, []⟩
            "k" true 7 "q").2] :=
  ⟨by decide,
   (c7_addItem_appends ⟨[("k", some ⟨0, [⟨1, "a", false⟩]⟩)], 2, []⟩
     "k" true 7 "q" (by decide)).1⟩

end MStore

namespace MStore

lemma itemsOf_eq_of_stored {α : Type} (st : StoreState α) (key : String) (a : Arr α)
    (h : storedArr st key = some a) : itemsOf st key = a.items := by
  unfold itemsOf sliceItems
  cases hl : lookupData st.data key with
  | none => simp [storedArr, hl] at h
  | some v =>
    cases v with
    | none => simp [storedArr, hl] at h
    | some a' =>
      simp [storedArr, hl] at h
      subst h
      rfl

lemma immerMapWhere_fst_length {α : Type} [DecidableEq α] (pred : String × α → Bool)
    (g : String × α → String × α) :
    ∀ (f : Nat) (l : List (Rec α)), (immerMapWhere pred g f l).1.length = l.length := by
  intro f l
  induction l generalizing f with
  | nil => rfl
  | cons r rest ih =>
    cases hp : pred (pairOf r) with
    | false => simp [immerMapWhere, hp, ih]
    | true => by_cases hg : g (pairOf r) = pairOf r <;> simp [immerMapWhere, hp, hg, ih]

lemma immerMapWhere_mem {α : Type} [DecidableEq α] (pred : String × α → Bool)
    (g : String × α → String × α) :
    ∀ (f : Nat) (l : List (Rec α)) (r' : Rec α), r' ∈ (immerMapWhere pred g f l).1 →
      r' ∈ l ∨ f ≤ r'.ref := by
  intro f l
  induction l generalizing f with
  | nil => intro r' h; simp [immerMapWhere] at h
  | cons r rest ih =>
    intro r' h
    cases hp : pred (pairOf r) with
    | false =>
      simp only [immerMapWhere, hp, Bool.false_eq_true, if_false] at h
      rcases List.mem_cons.mp h with rfl | h2
      · exact Or.inl (List.mem_cons_self r' rest)
      · rcases ih f r' h2 with h3 | h3
        · exact Or.inl (List.mem_cons_of_mem r h3)
        · exact Or.inr h3
    | true =>
      by_cases hg : g (pairOf r) = pairOf r
      · simp only [immerMapWhere, hp, if_true, hg, if_pos rfl] at h
        rcases List.mem_cons.mp h with rfl | h2
        · exact Or.inl (List.mem_cons_self r' rest)
        · rcases ih f r' h2 with h3 | h3
          · exact Or.inl (List.mem_cons_of_mem r h3)
          · exact Or.inr h3
      · simp only [immerMapWhere, hp, if_true, if_neg hg] at h
        rcases List.mem_cons.mp h with rfl | h2
        · exact Or.inr (Nat.le_refl _)
        · rcases ih (f + 1) r' h2 with h3 | h3
          · exact Or.inl (List.mem_cons_of_mem r h3)
          · exact Or.inr (Nat.le_of_succ_le h3)

lemma immerMapWhere_cons_not_pred {α : Type} [DecidableEq α] {pred : String × α → Bool}
    {g : String × α → String × α} {r : Rec α} (rest : List (Rec α)) (f : Nat)
    (hp : pred (pairOf r) = false) :
    immerMapWhere pred g f (r :: rest) =
      (r :: (immerMapWhere pred g f rest).1, (immerMapWhere pred g f rest).2) := by
  simp [immerMapWhere, hp]

lemma immerMapWhere_cons_fix {α : Type} [DecidableEq α] {pred : String × α → Bool}
    {g : String × α → String × α} {r : Rec α} (rest : List (Rec α)) (f : Nat)
    (hp : pred (pairOf r) = true) (hg : g (pairOf r) = pairOf r) :
    immerMapWhere pred g f (r :: rest) =
      (r :: (immerMapWhere pred g f rest).1, (immerMapWhere pred g f rest).2) := by
  simp [immerMapWhere, hp, hg]

lemma immerMapWhere_cons_changed {α : Type} [DecidableEq α] {pred : String × α → Bool}
    {g : String × α → String × α} {r : Rec α} (rest : List (Rec α)) (f : Nat)
    (hp : pred (pairOf r) = true) (hg : g (pairOf r) ≠ pairOf r) :
    immerMapWhere pred g f (r :: rest) =
      (⟨f, (g (pairOf r)).1, (g (pairOf r)).2⟩ :: (immerMapWhere pred g (f + 1) rest).1,
        (immerMapWhere pred g (f + 1) rest).2.1, true) := by
  simp [immerMapWhere, hp, hg]

lemma immerMapWhere_get_unchanged {α : Type} [DecidableEq α] (pred : String × α → Bool)
    (g : String × α → String × α) :
    ∀ (f : Nat) (l : List (Rec α)) (j : Nat) (hj : j < l.length),
      (pred (pairOf (l.get ⟨j, hj⟩)) = false ∨
        g (pairOf (l.get ⟨j, hj⟩)) = pairOf (l.get ⟨j, hj⟩)) →
      (immerMapWhere pred g f l).1.get? j = some (l.get ⟨j, hj⟩) := by
  intro f l
  induction l generalizing f with
  | nil => intro j hj _; exact absurd hj (Nat.not_lt_zero j)
  | cons r rest ih =>
    intro j hj hcond
    cases hp : pred (pairOf r) with
    | false =>
      rw [immerMapWhere_cons_not_pred rest f hp]
      cases j with
      | zero => rfl
      | succ j =>
        have hjr := Nat.lt_of_succ_lt_succ hj
        simp only [List.get_cons_succ] at hcond
        simp only [List.get?_cons_succ]
        exact ih f j hjr hcond
    | true =>
      by_cases hg : g (pairOf r) = pairOf r
      · rw [immerMapWhere_cons_fix rest f hp hg]
        cases j with
        | zero => rfl
        | succ j =>
          have hjr := Nat.lt_of_succ_lt_succ hj
          simp only [List.get_cons_succ] at hcond
          simp only [List.get?_cons_succ]
          exact ih f j hjr hcond
      · cases j with
        | zero =>
          simp only [List.get] at hcond
          rcases hcond with hc | hc
          · rw [hp] at hc
            cases hc
          · exact absurd hc hg
        | succ j =>
          rw [immerMapWhere_cons_changed rest f hp hg]
          have hjr := Nat.lt_of_succ_lt_succ hj
          simp only [List.get_cons_succ] at hcond
          simp only [List.get?_cons_succ]
          exact ih (f + 1) j hjr hcond

lemma immerMapWhere_get_changed {α : Type} [DecidableEq α] (pred : String × α → Bool)
    (g : String × α → String × α) :
    ∀ (f : Nat) (l : List (Rec α)) (j : Nat) (hj : j < l.length),
      (pred (pairOf (l.get ⟨j, hj⟩)) = true ∧
        g (pairOf (l.get ⟨j, hj⟩)) ≠ pairOf (l.get ⟨j, hj⟩)) →
      ((immerMapWhere pred g f l).1.get? j).map pairOf =
        some (g (pairOf (l.get ⟨j, hj⟩))) := by
  intro f l
  induction l generalizing f with
  | nil => intro j hj _; exact absurd hj (Nat.not_lt_zero j)
  | cons r rest ih =>
    intro j hj hcond
    cases hp : pred (pairOf r) with
    | false =>
      cases j with
      | zero =>
        simp only [List.get] at hcond
        rw [hp] at hcond
        cases hcond.1
      | succ j =>
        rw [immerMapWhere_cons_not_pred rest f hp]
        have hjr := Nat.lt_of_succ_lt_succ hj
        simp only [List.get_cons_succ] at hcond
        simp only [List.get?_cons_succ]
        exact ih f j hjr hcond
    | true =>
      by_cases hg : g (pairOf r) = pairOf r
      · cases j with
        | zero =>
          simp only [List.get] at hcond
          exact absurd hg hcond.2
        | succ j =>
          rw [immerMapWhere_cons_fix rest f hp hg]
          have hjr := Nat.lt_of_succ_lt_succ hj
          simp only [List.get_cons_succ] at hcond
          simp only [List.get?_cons_succ]
          exact ih f j hjr hcond
      · cases j with
        | zero =>
          rw [immerMapWhere_cons_changed rest f hp hg]
          simp only [List.get_cons_zero]
          rfl
        | succ j =>
          rw [immerMapWhere_cons_changed rest f hp hg]
          have hjr := Nat.lt_of_succ_lt_succ hj
          simp only [List.get_cons_succ] at hcond
          simp only [List.get?_cons_succ]
          exact ih (f + 1) j hjr hcond

lemma immerMapWhere_post_fix {α : Type} [DecidableEq α] (pred : String × α → Bool)
    (g : String × α → String × α) (hgg : ∀ x, g (g x) = g x) :
    ∀ (f : Nat) (l : List (Rec α)) (r1 : Rec α), r1 ∈ (immerMapWhere pred g f l).1 →
      pred (pairOf r1) = true → g (pairOf r1) = pairOf r1 := by
  intro f l
  induction l generalizing f with
  | nil => intro r1 h; simp [immerMapWhere] at h
  | cons r rest ih =>
    intro r1 h hpred
    cases hp : pred (pairOf r) with
    | false =>
      simp only [immerMapWhere, hp, Bool.false_eq_true, if_false] at h
      rcases List.mem_cons.mp h with rfl | h2
      · rw [hpred] at hp
        cases hp
      · exact ih f r1 h2 hpred
    | true =>
      by_cases hg : g (pairOf r) = pairOf r
      · simp only [immerMapWhere, hp, if_true, hg, if_pos rfl] at h
        rcases List.mem_cons.mp h with rfl | h2
        · exact hg
        · exact ih f r1 h2 hpred
      · simp only [immerMapWhere, hp, if_true, if_neg hg] at h
        rcases List.mem_cons.mp h with rfl | h2
        · have hpair : pairOf ⟨f, (g (pairOf r)).1, (g (pairOf r)).2⟩ = g (pairOf r) := rfl
          rw [hpair]
          exact hgg (pairOf r)
        · exact ih (f + 1) r1 h2 hpred

lemma immerMapWhere_of_fix {α : Type} [DecidableEq α] (pred : String × α → Bool)
    (g : String × α → String × α) :
    ∀ (f : Nat) (l : List (Rec α)),
      (∀ r ∈ l, pred (pairOf r) = true → g (pairOf r) = pairOf r) →
      immerMapWhere pred g f l = (l, f, false) := by
  intro f l
  induction l generalizing f with
  | nil => intro _; rfl
  | cons r rest ih =>
    intro hfix
    have hrest := ih f (fun r' hr' => hfix r' (List.mem_cons_of_mem r hr'))
    cases hp : pred (pairOf r) with
    | false => simp [immerMapWhere, hp, hrest]
    | true =>
      have hg := hfix r (List.mem_cons_self r rest) hp
      simp [immerMapWhere, hp, hg, hrest]

lemma immerMapWhere_base_of_not_changed {α : Type} [DecidableEq α]
    (pred : String × α → Bool) (g : String × α → String × α) :
    ∀ (f : Nat) (l : List (Rec α)), (immerMapWhere pred g f l).2.2 = false →
      (immerMapWhere pred g f l).1 = l := by
  intro f l
  induction l generalizing f with
  | nil => intro _; rfl
  | cons r rest ih =>
    intro hch
    cases hp : pred (pairOf r) with
    | false =>
      rw [immerMapWhere_cons_not_pred rest f hp] at hch ⊢
      rw [ih f hch]
    | true =>
      by_cases hg : g (pairOf r) = pairOf r
      · rw [immerMapWhere_cons_fix rest f hp hg] at hch ⊢
        rw [ih f hch]
      · rw [immerMapWhere_cons_changed rest f hp hg] at hch
        cases hch

lemma updateItemsWhere_items {α : Type} [DecidableEq α] (st : StoreState α)
    (key : String) (pred : String × α → Bool) (g : String × α → String × α) :
    itemsOf (updateItemsWhere st key pred g) key =
      (immerMapWhere pred g (readArrAt st.data key st.fresh).2
        (readArrAt st.data key st.fresh).1.items).1 := by
  unfold updateItemsWhere
  cases hch : (immerMapWhere pred g (readArrAt st.data key st.fresh).2
      (readArrAt st.data key st.fresh).1.items).2.2 with
  | true => simp [hch, itemsOf_setData_self]
  | false => simp [hch, itemsOf_setData_self, immerMapWhere_base_of_not_changed _ _ _ _ hch]

lemma updateItemsWhere_stored_isSome {α : Type} [DecidableEq α] (st : StoreState α)
    (key : String) (pred : String × α → Bool) (g : String × α → String × α) :
    ∃ arr1, storedArr (updateItemsWhere st key pred g) key = some arr1 := by
  cases hch : (immerMapWhere pred g (readArrAt st.data key st.fresh).2
      (readArrAt st.data key st.fresh).1.items).2.2 with
  | true =>
    refine ⟨⟨(immerMapWhere pred g (readArrAt st.data key st.fresh).2
        (readArrAt st.data key st.fresh).1.items).2.1,
      (immerMapWhere pred g (readArrAt st.data key st.fresh).2
        (readArrAt st.data key st.fresh).1.items).1⟩, ?_⟩
    simp [updateItemsWhere, hch, storedArr_setData_self]
  | false =>
    refine ⟨(readArrAt st.data key st.fresh).1, ?_⟩
    simp [updateItemsWhere, hch, storedArr_setData_self]

end MStore

namespace MStore

lemma readArrAt_snd_ge {α : Type} (d : DataTable α) (key : String) (f : Nat) :
    f ≤ (readArrAt d key f).2 := by
  cases h : lookupData d key with
  | none => simp only [readArrAt, h]; omega
  | some v => cases v <;> simp only [readArrAt, h] <;> omega

/-- Claim C8 (confirmed): `updateItemsWhere` replaces exactly the records
matching the predicate (evaluated on the original pre-mutation records)
with mutated copies — non-matching records and records the mutator leaves
unchanged keep their references, every element of the result is an old
record or a fresh allocation — and, when the mutator is idempotent (on a
second pass it writes only values the records already carry), re-running
the same call leaves the stored array and every record in it
reference-identical to the result of the first run. -/
theorem c8_updateItemsWhere_matches_and_idempotent {α : Type} [DecidableEq α]
    (st : StoreState α) (key : String) (pred : String × α → Bool)
    (g : String × α → String × α) (hgg : ∀ x, g (g x) = g x) :
    (itemsOf (updateItemsWhere st key pred g) key).length = (itemsOf st key).length ∧
    (∀ j (hj : j < (itemsOf st key).length),
      ((pred (pairOf ((itemsOf st key).get ⟨j, hj⟩)) = false ∨
          g (pairOf ((itemsOf st key).get ⟨j, hj⟩)) = pairOf ((itemsOf st key).get ⟨j, hj⟩)) →
        (itemsOf (updateItemsWhere st key pred g) key).get? j =
          some ((itemsOf st key).get ⟨j, hj⟩)) ∧
      ((pred (pairOf ((itemsOf st key).get ⟨j, hj⟩)) = true ∧
          g (pairOf ((itemsOf st key).get ⟨j, hj⟩)) ≠ pairOf ((itemsOf st key).get ⟨j, hj⟩)) →
        ((itemsOf (updateItemsWhere st key pred g) key).get? j).map pairOf =
          some (g (pairOf ((itemsOf st key).get ⟨j, hj⟩))))) ∧
    (∀ r ∈ itemsOf (updateItemsWhere st key pred g) key,
      r ∈ itemsOf st key ∨ st.fresh ≤ r.ref) ∧
    storedArr (updateItemsWhere (updateItemsWhere st key pred g) key pred g) key =
      storedArr (updateItemsWhere st key pred g) key := by
  have hlead : (readArrAt st.data key st.fresh).1.items = itemsOf st key :=
    readArrAt_items _ _ _
  have hitems := updateItemsWhere_items st key pred g
  rw [hlead] at hitems
  refine ⟨?_, ?_, ?_, ?_⟩
  · rw [hitems, immerMapWhere_fst_length]
  · intro j hj
    constructor
    · intro hc
      rw [hitems]
      exact immerMapWhere_get_unchanged pred g _ _ j hj hc
    · intro hc
      rw [hitems]
      exact immerMapWhere_get_changed pred g _ _ j hj hc
  · intro r hr
    rw [hitems] at hr
    rcases immerMapWhere_mem pred g _ _ r hr with h | h
    · exact Or.inl h
    · exact Or.inr (Nat.le_trans (readArrAt_snd_ge st.data key st.fresh) h)
  · obtain ⟨arr1, harr1⟩ := updateItemsWhere_stored_isSome st key pred g
    have harr1items : arr1.items = itemsOf (updateItemsWhere st key pred g) key :=
      (itemsOf_eq_of_stored _ _ _ harr1).symm
    have hfix : ∀ r1 ∈ arr1.items, pred (pairOf r1) = true → g (pairOf r1) = pairOf r1 := by
      rw [harr1items, hitems]
      exact fun r1 h1 => immerMapWhere_post_fix pred g hgg _ _ r1 h1
    have hread2 := readArrAt_of_stored (updateItemsWhere st key pred g) key arr1 harr1
      (updateItemsWhere st key pred g).fresh
    have hbase := immerMapWhere_of_fix pred g (updateItemsWhere st key pred g).fresh
      arr1.items hfix
    rw [harr1]
    set st1 := updateItemsWhere st key pred g with hst1
    simp [updateItemsWhere, hread2, hbase, storedArr_setData_self]

/-- Witness for the C8 theorem: two records, the predicate matches the
not-yet-completed one, the mutator sets the flag; the second run is a no-op
and the stored array object is unchanged. -/
theorem c8_witness :
    (∀ x : String × Bool, (fun y : String × Bool => (y.1, true))
        ((fun y : String × Bool => (y.1, true)) x) =
      (fun y : String × Bool => (y.1, true)) x) ∧
    storedArr (updateItemsWhere
        (updateItemsWhere (α := Bool)
          ⟨[("k", some ⟨0, [⟨1, "a", false⟩, ⟨2, "b", true⟩]⟩)], 3, []⟩
          "k" (fun y => !y.2) (fun y => (y.1, true)))
        "k" (fun y => !y.2) (fun y => (y.1, true))) "k" =
      storedArr (updateItemsWhere (α := Bool)
        ⟨[("k", some ⟨0, [⟨1, "a", false⟩, ⟨2, "b", true⟩]⟩)], 3, []⟩
        "k" (fun y => !y.2) (fun y => (y.1, true))) "k" :=
  ⟨fun x => rfl,
   (c8_updateItemsWhere_matches_and_idempotent
     ⟨[("k", some ⟨0, [⟨1, "a", false⟩, ⟨2, "b", true⟩]⟩)], 3, []⟩
     "k" (fun y => !y.2) (fun y => (y.1, true)) (fun x => rfl)).2.2.2⟩

end MStore

namespace MStore

lemma idsOf_eq_map_itemsOf {α : Type} (st : StoreState α) (key : String) :
    idsOf st key = (itemsOf st key).map (fun r => r.id) := rfl

lemma addItem_itemsOf {α : Type} (st : StoreState α) (key : String) (p : α)
    (now : Nat) (suffix : String) :
    itemsOf (addItem st key p now suffix).1 key =
      itemsOf st key ++ [⟨st.fresh, genId now suffix, p⟩] := by
  simp only [addItem]
  rw [itemsOf_setData_self, readArrAt_items]
  rfl

lemma immerMapFirst_cons_hit {α : Type} [DecidableEq α] {g : String × α → String × α}
    {i : String} {r : Rec α} (rest : List (Rec α)) (f : Nat) (hr : r.id = i)
    (hchg : g (pairOf r) ≠ pairOf r) :
    immerMapFirst g i f (r :: rest) =
      some (⟨f, (g (pairOf r)).1, (g (pairOf r)).2⟩ :: rest, f + 1) := by
  simp [immerMapFirst, hr, hchg]

lemma immerMapFirst_cons_miss {α : Type} [DecidableEq α] {g : String × α → String × α}
    {i : String} {r : Rec α} (rest : List (Rec α)) (f : Nat) (hr : r.id ≠ i) :
    immerMapFirst g i f (r :: rest) =
      (match immerMapFirst g i f rest with
       | none => none
       | some (rest', f') => some (r :: rest', f')) := by
  simp [immerMapFirst, hr]

lemma immerMapFirst_ids {α : Type} [DecidableEq α] (g : String × α → String × α)
    (i : String) (hg : ∀ x, (g x).1 = x.1) :
    ∀ (f : Nat) (l : List (Rec α)) (res : List (Rec α) × Nat),
      immerMapFirst g i f l = some res →
      res.1.map (fun r => r.id) = l.map (fun r => r.id) := by
  intro f l
  induction l generalizing f with
  | nil => intro res h; simp [immerMapFirst] at h
  | cons r rest ih =>
    intro res h
    by_cases hr : r.id = i
    · by_cases hfix : g (pairOf r) = pairOf r
      · simp [immerMapFirst, hr, hfix] at h
      · rw [immerMapFirst_cons_hit rest f hr hfix] at h
        have hres := Option.some.inj h
        subst hres
        simp only [List.map_cons]
        rw [show (g (pairOf r)).1 = r.id from hg (pairOf r)]
    · rw [immerMapFirst_cons_miss rest f hr] at h
      cases h2 : immerMapFirst g i f rest with
      | none => rw [h2] at h; cases h
      | some pair =>
        obtain ⟨rest', f2⟩ := pair
        rw [h2] at h
        have hres := Option.some.inj h
        subst hres
        simp only [List.map_cons]
        rw [ih f (rest', f2) h2]

lemma updateItem_idsOf {α : Type} [DecidableEq α] (st : StoreState α) (key i : String)
    (g : String × α → String × α) (hg : ∀ x, (g x).1 = x.1) :
    idsOf (updateItem st key i g) key = idsOf st key := by
  rw [idsOf_eq_map_itemsOf, idsOf_eq_map_itemsOf]
  simp only [updateItem]
  cases h : immerMapFirst g i (readArrAt st.data key st.fresh).2
      (readArrAt st.data key st.fresh).1.items with
  | none =>
    simp only [h]
    rw [itemsOf_setData_self, readArrAt_items]
    rfl
  | some pair =>
    obtain ⟨l', f'⟩ := pair
    simp only [h]
    rw [itemsOf_setData_self]
    have := immerMapFirst_ids g i hg _ _ (l', f') h
    rw [this, readArrAt_items]
    rfl

lemma immerMapWhere_ids {α : Type} [DecidableEq α] (pred : String × α → Bool)
    (g : String × α → String × α) (hg : ∀ x, (g x).1 = x.1) :
    ∀ (f : Nat) (l : List (Rec α)),
      (immerMapWhere pred g f l).1.map (fun r => r.id) = l.map (fun r => r.id) := by
  intro f l
  induction l generalizing f with
  | nil => rfl
  | cons r rest ih =>
    cases hp : pred (pairOf r) with
    | false =>
      rw [immerMapWhere_cons_not_pred rest f hp]
      simp [ih]
    | true =>
      by_cases hgf : g (pairOf r) = pairOf r
      · rw [immerMapWhere_cons_fix rest f hp hgf]
        simp [ih]
      · rw [immerMapWhere_cons_changed rest f hp hgf]
        simp only [List.map_cons, ih]
        rw [show (g (pairOf r)).1 = r.id from hg (pairOf r)]

lemma updateItemsWhere_idsOf {α : Type} [DecidableEq α] (st : StoreState α)
    (key : String) (pred : String × α → Bool) (g : String × α → String × α)
    (hg : ∀ x, (g x).1 = x.1) :
    idsOf (updateItemsWhere st key pred g) key = idsOf st key := by
  rw [idsOf_eq_map_itemsOf, idsOf_eq_map_itemsOf, updateItemsWhere_items]
  rw [immerMapWhere_ids pred g hg, readArrAt_items]
  rfl

lemma contentsOf_fst {α : Type} (items : List (Rec α)) :
    (contentsOf items).map Prod.fst = items.map (fun r => r.id) := by
  induction items with
  | nil => rfl
  | cons r rest ih => simp [contentsOf, pairOf] at ih ⊢

lemma reassign_ids {α : Type} [DecidableEq α] :
    ∀ (f : Nat) (rs : List (Rec α)) (ps : List (String × α)),
      (reassign f rs ps).1.map (fun r => r.id) = ps.map Prod.fst := by
  intro f rs ps
  induction ps generalizing f rs with
  | nil => cases rs <;> rfl
  | cons p ps ih =>
    cases rs with
    | nil => simp [reassign, ih]
    | cons r rs' =>
      by_cases hpr : pairOf r = p
      · simp only [reassign, if_pos hpr, List.map_cons]
        rw [ih]
        rw [show r.id = p.1 from congrArg Prod.fst hpr]
      · simp only [reassign, if_neg hpr, List.map_cons]
        rw [ih]

lemma updateItems_idsOf_nodup {α : Type} [DecidableEq α] (st : StoreState α)
    (key : String) (h : List (String × α) → List (String × α))
    (hh : ∀ l, (l.map Prod.fst).Nodup → ((h l).map Prod.fst).Nodup)
    (hnd : (idsOf st key).Nodup) : (idsOf (updateItems st key h) key).Nodup := by
  rw [idsOf_eq_map_itemsOf]
  simp only [updateItems]
  by_cases hc : h (contentsOf (readArrAt st.data key st.fresh).1.items) =
      contentsOf (readArrAt st.data key st.fresh).1.items
  · rw [if_pos hc]
    rw [itemsOf_setData_self, readArrAt_items]
    exact hnd
  · rw [if_neg hc]
    rw [itemsOf_setData_self, reassign_ids]
    apply hh
    rw [contentsOf_fst, readArrAt_items]
    exact hnd

lemma removeItem_idsOf_nodup {α : Type} (st : StoreState α) (key i : String)
    (hnd : (idsOf st key).Nodup) : (idsOf (removeItem st key i) key).Nodup := by
  rw [idsOf_eq_map_itemsOf]
  have hitems : itemsOf (removeItem st key i) key =
      (itemsOf st key).filter (fun r => r.id ≠ i) := by
    simp only [removeItem]
    rw [itemsOf_setData_self, readArrAt_items]
    rfl
  rw [hitems]
  exact List.Nodup.sublist (List.Sublist.map _ (List.filter_sublist _)) hnd

end MStore

namespace MStore

/-- Claim C9, counterexample: the state reached from the fresh store by the
view-operation sequence `addItem` (id "0a"), `addItem` (id "1a"),
`updateItem "0a"` with a mutator that assigns the draft's `id` field the
value "1a" — a `Draft<T>` write the interface permits — holds two records
with the same id, so not every reachable state has pairwise-distinct ids. -/
theorem c9_counterexample :
    ¬ (idsOf (updateItem (α := Bool)
        ((addItem (α := Bool) ((addItem (α := Bool) ⟨[], 0, []⟩ "k" false 0 "a").1)
          "k" false 1 "a").1)
        "k" "0a" (fun x => ("1a", x.2))) "k").Nodup := by
  decide

/-- Claim C9 (amended): every store state reachable from the fresh store by
view operations whose mutators leave each record's `id` field unchanged
(and whose whole-collection recipes preserve id distinctness), and whose
`addItem` calls generate ids not already present in their collection, has
pairwise-distinct ids in every collection.  The code performs no collision
check of its own: id distinctness rests entirely on these side conditions. -/
theorem c9_unique_ids_when_generator_fresh {α : Type} [DecidableEq α]
    (st : StoreState α) (hst : SafeReachable st) :
    ∀ key, (idsOf st key).Nodup := by
  induction hst with
  | init => intro key; simp [idsOf, sliceItems, lookupData]
  | step st m hst hid hfresh ih =>
    intro key
    by_cases hkey : key = m.key
    · subst hkey
      cases m with
      | add k1 p now s =>
        simp only [Mutation.key, applyMutation] at hfresh ⊢
        rw [idsOf_eq_map_itemsOf, addItem_itemsOf]
        simp only [List.map_append, List.map_cons, List.map_nil]
        rw [List.nodup_append]
        refine ⟨ih k1, List.nodup_singleton _, ?_⟩
        intro a ha hb
        simp only [List.mem_singleton] at hb
        subst hb
        exact hfresh ha
      | update k1 i g =>
        simp only [Mutation.key, applyMutation]
        rw [updateItem_idsOf st k1 i g hid]
        exact ih k1
      | updateAll k1 h1 =>
        simp only [Mutation.key, applyMutation]
        exact updateItems_idsOf_nodup st k1 h1 hid (ih k1)
      | updateWhere k1 pr g =>
        simp only [Mutation.key, applyMutation]
        rw [updateItemsWhere_idsOf st k1 pr g hid]
        exact ih k1
      | remove k1 i =>
        simp only [Mutation.key, applyMutation]
        exact removeItem_idsOf_nodup st k1 i (ih k1)
      | clearColl k1 =>
        simp only [Mutation.key, applyMutation]
        rw [idsOf_eq_map_itemsOf]
        have hempty : itemsOf (clearItems st k1) k1 = [] := by
          simp only [clearItems]
          rw [itemsOf_setData_self]
        rw [hempty]
        exact List.nodup_nil
      | setReplace k1 r =>
        simp only [Mutation.key, applyMutation]
        rw [idsOf_eq_map_itemsOf]
        have hone : itemsOf (setItemReplace st k1 r) k1 = [r] := by
          simp only [setItemReplace]
          rw [itemsOf_setData_self]
        rw [hone]
        simp
      | setCreate k1 p now s =>
        simp only [Mutation.key, applyMutation]
        rw [idsOf_eq_map_itemsOf]
        have hone : itemsOf (setItemCreate st k1 p now s).1 k1 =
            [⟨st.fresh, genId now s, p⟩] := by
          simp only [setItemCreate]
          rw [itemsOf_setData_self]
        rw [hone]
        simp
      | setUpdate k1 g =>
        simp only [Mutation.key, applyMutation, setItemUpdate]
        rcases hmatch : (readArrAt st.data k1 st.fresh).1.items with _ | ⟨r, rest⟩
        · simp only [hmatch]
          exact ih k1
        · simp only [hmatch]
          by_cases hfix : g (pairOf r) = pairOf r
          · rw [if_pos hfix, idsOf_eq_map_itemsOf, itemsOf_setData_self]
            simp
          · rw [if_neg hfix, idsOf_eq_map_itemsOf, itemsOf_setData_self]
            simp
    · have hsame : idsOf (applyMutation st m) key = idsOf st key := by
        unfold idsOf sliceItems
        rw [applyMutation_lookup_ne st m key hkey]
      rw [hsame]
      exact ih key

/-- Witness for the amended C9 theorem: two `addItem` calls with distinct
generated ids, derived safe-reachable step by step. -/
theorem c9_witness :
    (idsOf (applyMutation (applyMutation (α := Bool) ⟨[], 0, []⟩
        (Mutation.add "k" false 0 "a")) (Mutation.add "k" false 1 "a")) "k").Nodup :=
  c9_unique_ids_when_generator_fresh _
    (SafeReachable.step (applyMutation ⟨[], 0, []⟩ (Mutation.add "k" false 0 "a"))
      (Mutation.add "k" false 1 "a")
      (SafeReachable.step ⟨[], 0, []⟩ (Mutation.add "k" false 0 "a")
        SafeReachable.init
        (show IdPreserving (α := Bool) (Mutation.add "k" false 0 "a") from trivial)
        (show genId 0 "a" ∉ idsOf (α := Bool) ⟨[], 0, []⟩ "k" by decide))
      (show IdPreserving (α := Bool) (Mutation.add "k" false 1 "a") from trivial)
      (show genId 1 "a" ∉
          idsOf (applyMutation (α := Bool) ⟨[], 0, []⟩ (Mutation.add "k" false 0 "a")) "k"
        by decide)) "k"

end MStore
